import Mathlib

/-!
# bedcon2015: text normalisation chain and n-gram tokenizer

A shallow embedding of `refactored.go` (and the helpers of `naive.go`).

* A Go `string` is an immutable byte sequence; it is modelled as a list of
  bytes (`GoString`), every byte a natural number below 256.
* A Go `rune` obtained from `for _, r := range s` is a natural number; the
  loop decodes UTF-8 the way the Go runtime does (an invalid byte gives
  U+FFFD and advances by one byte).
* Go `int` is 64 bits wide: arithmetic on it is integer arithmetic followed
  by `wrapInt`; the conversion `rune(x)` keeps the low 32 bits (`rune`).
* A run-time panic (slice bounds out of range) is the result `none`.
-/

namespace Bedcon

/-- A Go string: a sequence of bytes. -/
abbrev GoString := List Nat

/-- The replacement character U+FFFD (`utf8.RuneError`). -/
def RuneError : Nat := 0xFFFD

/-- The unicode scalar values: 0..0x10FFFF without the surrogates. -/
def isScalar (v : Nat) : Prop := v ≤ 0x10FFFF ∧ ¬ (0xD800 ≤ v ∧ v ≤ 0xDFFF)

instance (v : Nat) : Decidable (isScalar v) := by
  unfold isScalar; exact inferInstance

/-- A continuation byte `10xxxxxx` (`locb <= b && b <= hicb`). -/
def isCont (b : Nat) : Bool := decide (0x80 ≤ b) && decide (b ≤ 0xBF)

/-- The Go function `utf8.EncodeRune` (used by `bytes.Buffer.WriteRune`): the UTF-8
bytes of a rune; a surrogate or a value above 0x10FFFF is written as
U+FFFD.  `t2 | byte(r>>6)` is `0xC0 + r / 64`, `tx | byte(r)&maskx` is
`0x80 + r % 64`, and so on. -/
def encodeRune (r : Nat) : GoString :=
  if r ≤ 0x7F then [r]
  else if r ≤ 0x7FF then [0xC0 + r / 64, 0x80 + r % 64]
  else if 0x10FFFF < r ∨ (0xD800 ≤ r ∧ r ≤ 0xDFFF) then [0xEF, 0xBF, 0xBD]
  else if r ≤ 0xFFFF then [0xE0 + r / 4096, 0x80 + r / 64 % 64, 0x80 + r % 64]
  else [0xF0 + r / 262144, 0x80 + r / 4096 % 64, 0x80 + r / 64 % 64, 0x80 + r % 64]

/-- One step of `for _, r := range s` (the ASCII fast path and
`runtime.decoderune`): the rune at the front of `s` and the number of
bytes it takes.  `rune(b0&mask2)<<6 | rune(b1&maskx)` is
`b0 % 32 * 64 + b1 % 64`, and so on. -/
def decodeRune : GoString → Nat × Nat
  | [] => (RuneError, 1)
  | b0 :: rest =>
    if b0 < 0x80 then (b0, 1)
    else if 0xC0 ≤ b0 ∧ b0 < 0xE0 then
      match rest with
      | b1 :: _ =>
        if isCont b1 then
          let r := b0 % 32 * 64 + b1 % 64
          if 0x7F < r then (r, 2) else (RuneError, 1)
        else (RuneError, 1)
      | _ => (RuneError, 1)
    else if 0xE0 ≤ b0 ∧ b0 < 0xF0 then
      match rest with
      | b1 :: b2 :: _ =>
        if isCont b1 && isCont b2 then
          let r := b0 % 16 * 4096 + b1 % 64 * 64 + b2 % 64
          if 0x7FF < r ∧ ¬ (0xD800 ≤ r ∧ r ≤ 0xDFFF) then (r, 3) else (RuneError, 1)
        else (RuneError, 1)
      | _ => (RuneError, 1)
    else if 0xF0 ≤ b0 ∧ b0 < 0xF8 then
      match rest with
      | b1 :: b2 :: b3 :: _ =>
        if isCont b1 && isCont b2 && isCont b3 then
          let r := b0 % 8 * 262144 + b1 % 64 * 4096 + b2 % 64 * 64 + b3 % 64
          if 0xFFFF < r ∧ r ≤ 0x10FFFF then (r, 4) else (RuneError, 1)
        else (RuneError, 1)
      | _ => (RuneError, 1)
    else (RuneError, 1)

/-- The runes that `for _, r := range s` visits, in order; the first
argument bounds the number of iterations (one per byte is enough). -/
def runesAux : Nat → GoString → List Nat
  | 0, _ => []
  | _, [] => []
  | fuel + 1, b :: bs =>
    (decodeRune (b :: bs)).1 :: runesAux fuel ((b :: bs).drop (decodeRune (b :: bs)).2)

/-- The runes of a string, as a `range` loop sees them. -/
def runes (s : GoString) : List Nat := runesAux s.length s

/-- The UTF-8 encoding of a sequence of scalar values: the well-formed
texts are exactly the strings `utf8 cs` with every element of `cs` a
scalar value. -/
def utf8 : List Nat → GoString
  | [] => []
  | c :: cs => encodeRune c ++ utf8 cs

/-- A string literal of the source: the UTF-8 bytes of its characters. -/
def lit (s : String) : GoString := utf8 (s.toList.map Char.toNat)

/-- Go `int` arithmetic: the result of an operation, wrapped to 64 bits
(two's complement). -/
def wrapInt (x : Int) : Int := (x + 9223372036854775808) % 18446744073709551616 - 9223372036854775808

/-- The conversion `rune(x)` of an `int`: the low 32 bits, signed. -/
def rune (x : Int) : Int := (x + 2147483648) % 4294967296 - 2147483648

/-! ## Normalizers -/

/-- The interface `Normalizer`: anything with a method
`Normalize(text string) string`. -/
structure Normalizer where
  Normalize : GoString → GoString

/-- The struct `ChainNormalizer`. -/
structure ChainNormalizer where
  Normalizers : List Normalizer

def NewChainNormalizer (normalizers : List Normalizer) : ChainNormalizer :=
  { Normalizers := normalizers }

/-- The loop `for _, normalizer := range Normalizers` of
`ChainNormalizer.Normalize`, started with `normalizedString`. -/
def ChainNormalizer.loop : List Normalizer → GoString → GoString
  | [], normalizedString => normalizedString
  | normalizer :: rest, normalizedString =>
    ChainNormalizer.loop rest (normalizer.Normalize normalizedString)

def ChainNormalizer.Normalize (chainNormalizer : ChainNormalizer) (text : GoString) : GoString :=
  ChainNormalizer.loop chainNormalizer.Normalizers text

/-- A chain has the method `Normalize`, so it is a `Normalizer`. -/
def ChainNormalizer.toNormalizer (c : ChainNormalizer) : Normalizer :=
  { Normalize := c.Normalize }

/-- The struct `UnicodeRangeNormalizer`; the points are Go `int`s. -/
structure UnicodeRangeNormalizer where
  StartPoint : Int
  EndPoint : Int
  ReplacementString : GoString

/-- The struct `chart`. -/
structure chart where
  StartPoint : Int
  EndPoint : Int

def EmoticonChart : chart := { StartPoint := 0x1F600, EndPoint := 0x1F64F }
def TransportAndMapChart : chart := { StartPoint := 0x1F680, EndPoint := 0x1F6FF }

def NewUnicodeRangeNormalizer (startPoint endPoint : Int) (replacementString : GoString) :
    UnicodeRangeNormalizer :=
  { StartPoint := startPoint, EndPoint := endPoint, ReplacementString := replacementString }

def NewUnicodeRangeNormalizerFromChart (c : chart) (replacementString : GoString) :
    UnicodeRangeNormalizer :=
  { StartPoint := c.StartPoint, EndPoint := c.EndPoint, ReplacementString := replacementString }

/-- The body of the loop of `UnicodeRangeNormalizer.Normalize`, run over
the runes of the text: what is written to the buffer. -/
def UnicodeRangeNormalizer.write (normalizer : UnicodeRangeNormalizer) : List Nat → GoString
  | [] => []
  | runeValue :: rest =>
    (if rune normalizer.StartPoint ≤ (runeValue : Int) ∧
        (runeValue : Int) ≤ rune normalizer.EndPoint then
      normalizer.ReplacementString
    else encodeRune runeValue) ++ UnicodeRangeNormalizer.write normalizer rest

def UnicodeRangeNormalizer.Normalize (normalizer : UnicodeRangeNormalizer) (text : GoString) :
    GoString :=
  normalizer.write (runes text)

def UnicodeRangeNormalizer.toNormalizer (n : UnicodeRangeNormalizer) : Normalizer :=
  { Normalize := n.Normalize }

/-! ## The string replacement normalizer -/

/-- A `strings.Replacer`: the old/new arguments it was built from. -/
structure Replacer where
  oldnew : List GoString

/-- The Go function `strings.NewReplacer(oldnew...)`.  (It panics on an odd number
of arguments; the list `replacerStrings` has an even length.) -/
def NewReplacer (oldnew : List GoString) : Replacer := { oldnew := oldnew }

/-- The old/new pairs of an argument list, in argument order. -/
def oldnewPairs : List GoString → List (GoString × GoString)
  | old :: new :: rest => (old, new) :: oldnewPairs rest
  | _ => []

/-- The lookup of the generic replacer: among the old strings that are a
prefix of `s`, the one given first (the highest priority), with its new
string and its length; `ignoreRoot` leaves the empty old string out. -/
def Replacer.lookup : List (GoString × GoString) → GoString → Bool → Option (GoString × Nat)
  | [], _, _ => none
  | (old, new) :: rest, s, ignoreRoot =>
    if old.isPrefixOf s = true ∧ ¬ (ignoreRoot = true ∧ old = []) then some (new, old.length)
    else Replacer.lookup rest s ignoreRoot

/-- The loop of the generic replacer (`genericReplacer.WriteString`): `rest`
is `s[i:]`, `pending` is `s[last:i]`, and the result is what is written from
here on.  After an empty match the empty old string is ignored once, so
every second iteration at least moves on: `2 * len(s) + 2` iterations are
enough. -/
def Replacer.loop (pairs : List (GoString × GoString)) :
    Nat → GoString → GoString → Bool → GoString
  | 0, rest, pending, _ => pending ++ rest
  | fuel + 1, rest, pending, prevMatchEmpty =>
    match Replacer.lookup pairs rest prevMatchEmpty with
    | some (val, keylen) =>
      pending ++ val ++ Replacer.loop pairs fuel (rest.drop keylen) [] (keylen == 0)
    | none =>
      match rest with
      | [] => pending
      | c :: rest' => Replacer.loop pairs fuel rest' (pending ++ [c]) false

/-- The method `Replacer.Replace`.  `NewReplacer` picks the generic algorithm
whenever an old string is not a single byte, and its byte-wise algorithms
give the same result as the generic one on single-byte old strings. -/
def Replacer.Replace (r : Replacer) (s : GoString) : GoString :=
  Replacer.loop (oldnewPairs r.oldnew) (2 * s.length + 3) s [] false

/-- The loop of `NewStringReplacementNormalizer`: two appends per string. -/
def appendReplacerStrings (replacementString : GoString) :
    List GoString → List GoString → List GoString
  | [], replacerStrings => replacerStrings
  | character :: rest, replacerStrings =>
    appendReplacerStrings replacementString rest
      ((replacerStrings ++ [character]) ++ [replacementString])

/-- The slice `replacerStrings` handed to `strings.NewReplacer`:
`make([]string, 2*len(normalizationStrings))` is a slice of that many empty
strings, and the loop appends to it. -/
def replacerStrings (normalizationStrings : List GoString) (replacementString : GoString) :
    List GoString :=
  appendReplacerStrings replacementString normalizationStrings
    (List.replicate (2 * normalizationStrings.length) [])

/-- The struct `StringReplacementNormalizer`. -/
structure StringReplacementNormalizer where
  NormalizationStrings : List GoString
  ReplacementString : GoString
  replacer : Replacer

def NewStringReplacementNormalizer (normalizationStrings : List GoString)
    (replacementString : GoString) : StringReplacementNormalizer :=
  { NormalizationStrings := normalizationStrings,
    ReplacementString := replacementString,
    replacer := NewReplacer (replacerStrings normalizationStrings replacementString) }

def StringReplacementNormalizer.Normalize (normalizer : StringReplacementNormalizer)
    (text : GoString) : GoString :=
  normalizer.replacer.Replace text

def StringReplacementNormalizer.toNormalizer (n : StringReplacementNormalizer) : Normalizer :=
  { Normalize := n.Normalize }

/-! ## The lower-case normalizer -/

/-- A row of the table `unicode.CaseRanges`: the runes `lo..hi` and what is
added to reach the lower case; `none` is the marker `UpperLower` (upper
and lower case alternate, starting with an upper case letter at `lo`). -/
structure CaseRange where
  lo : Nat
  hi : Nat
  lowerDelta : Option Int

/-- The rows of `unicode.CaseRanges` for U+0080..U+017F (Latin-1 Supplement
and Latin Extended-A).  The rows for higher runes are not part of this
model, which leaves those runes as they are. -/
def caseRanges : List CaseRange :=
  [ { lo := 0x00B5, hi := 0x00B5, lowerDelta := some 0 },
    { lo := 0x00C0, hi := 0x00D6, lowerDelta := some 32 },
    { lo := 0x00D8, hi := 0x00DE, lowerDelta := some 32 },
    { lo := 0x00E0, hi := 0x00F6, lowerDelta := some 0 },
    { lo := 0x00F8, hi := 0x00FE, lowerDelta := some 0 },
    { lo := 0x00FF, hi := 0x00FF, lowerDelta := some 0 },
    { lo := 0x0100, hi := 0x012F, lowerDelta := none },
    { lo := 0x0130, hi := 0x0130, lowerDelta := some (-199) },
    { lo := 0x0131, hi := 0x0131, lowerDelta := some 0 },
    { lo := 0x0132, hi := 0x0137, lowerDelta := none },
    { lo := 0x0139, hi := 0x0148, lowerDelta := none },
    { lo := 0x014A, hi := 0x0177, lowerDelta := none },
    { lo := 0x0178, hi := 0x0178, lowerDelta := some (-121) },
    { lo := 0x0179, hi := 0x017E, lowerDelta := none },
    { lo := 0x017F, hi := 0x017F, lowerDelta := some 0 } ]

/-- The Go function `unicode.To(unicode.LowerCase, r)` over a table: the row that holds
`r` decides; in an `UpperLower` row the low bit of the offset is set. -/
def toLowerIn : List CaseRange → Nat → Nat
  | [], r => r
  | cr :: rest, r =>
    if cr.lo ≤ r ∧ r ≤ cr.hi then
      match cr.lowerDelta with
      | some delta => ((r : Int) + delta).toNat
      | none => cr.lo + ((r - cr.lo) / 2 * 2 + 1)
    else toLowerIn rest r

/-- The Go function `unicode.ToLower`. -/
def unicodeToLower (r : Nat) : Nat :=
  if r ≤ 0x7F then
    if 0x41 ≤ r ∧ r ≤ 0x5A then r + 32 else r
  else toLowerIn caseRanges r

/-- The Go function `strings.Map(mapping, s)` for a mapping without negative results:
every rune of `s`, mapped and encoded again. -/
def stringsMap (mapping : Nat → Nat) (s : GoString) : GoString :=
  utf8 ((runes s).map mapping)

/-- The Go function `strings.ToLower`. -/
def stringsToLower (s : GoString) : GoString := stringsMap unicodeToLower s

/-- The struct `LowerCaseNormalizer`. -/
structure LowerCaseNormalizer where
  ReplacementString : GoString

def NewLowerCaseNormalizer : LowerCaseNormalizer := { ReplacementString := [] }

def LowerCaseNormalizer.Normalize (_normalizer : LowerCaseNormalizer) (text : GoString) :
    GoString :=
  stringsToLower text

def LowerCaseNormalizer.toNormalizer (n : LowerCaseNormalizer) : Normalizer :=
  { Normalize := n.Normalize }

/-! ## The regexp normalizer -/

/-- The syntax tree of a regular expression of package `regexp`, as far as
the patterns of this program need it.  Groups do not change what is matched
and are left out; `x+` is `cat x (star x)`, `x?` is `alt x empty`. -/
inductive Regexp where
  | empty : Regexp
  | char : Nat → Regexp
  | cls : List (Nat × Nat) → Regexp
  | anyNotNL : Regexp
  | cat : Regexp → Regexp → Regexp
  | alt : Regexp → Regexp → Regexp
  | star : Regexp → Regexp

/-- A position of the input: the rune read there and the bytes it takes. -/
abbrev Cell := Nat × GoString

/-- The input of a match, rune by rune, as `regexp` steps through a string. -/
def cellsAux : Nat → GoString → List Cell
  | 0, _ => []
  | _, [] => []
  | fuel + 1, b :: bs =>
    ((decodeRune (b :: bs)).1, (b :: bs).take (decodeRune (b :: bs)).2)
      :: cellsAux fuel ((b :: bs).drop (decodeRune (b :: bs)).2)

def cells (s : GoString) : List Cell := cellsAux s.length s

/-- The bytes of a stretch of the input. -/
def cellBytes : List Cell → GoString
  | [] => []
  | c :: cs => c.2 ++ cellBytes cs

def inClass (ranges : List (Nat × Nat)) (r : Nat) : Bool :=
  ranges.any (fun p => decide (p.1 ≤ r) && decide (r ≤ p.2))

/-- The greedy loop of `x*`: as many rounds of `step` as possible, each
taking at least one rune, then the continuation `k`. -/
def starLoop (step : List Cell → (List Cell → Option (List Cell)) → Option (List Cell)) :
    Nat → List Cell → (List Cell → Option (List Cell)) → Option (List Cell)
  | 0, s, k => k s
  | n + 1, s, k =>
    match step s (fun s' => if s'.length < s.length then starLoop step n s' k else none) with
    | some out => some out
    | none => k s

/-- The match a backtracking search finds first (leftmost-first, the
semantics of package `regexp`): `run re s k` matches `re` at the front of
`s` and hands the rest to `k`; alternatives are tried left to right and
repetition is greedy. -/
def Regexp.run : Regexp → List Cell → (List Cell → Option (List Cell)) → Option (List Cell)
  | .empty, s, k => k s
  | .char c, s, k =>
    match s with
    | x :: rest => if x.1 = c then k rest else none
    | [] => none
  | .cls ranges, s, k =>
    match s with
    | x :: rest => if inClass ranges x.1 = true then k rest else none
    | [] => none
  | .anyNotNL, s, k =>
    match s with
    | x :: rest => if x.1 = 0x0A then none else k rest
    | [] => none
  | .cat a b, s, k => Regexp.run a s (fun s' => Regexp.run b s' k)
  | .alt a b, s, k =>
    match Regexp.run a s k with
    | some out => some out
    | none => Regexp.run b s k
  | .star a, s, k => starLoop (Regexp.run a) s.length s k

/-- The leftmost match at or after the front of `s`: the input skipped before
the match and the input left after it. -/
def Regexp.find (re : Regexp) : List Cell → Option (List Cell × List Cell)
  | [] =>
    match re.run [] some with
    | some rest => some ([], rest)
    | none => none
  | c :: s =>
    match re.run (c :: s) some with
    | some rest => some ([], rest)
    | none =>
      match Regexp.find re s with
      | some (skipped, rest) => some (c :: skipped, rest)
      | none => none

/-- The loop of `Regexp.ReplaceAllString` (`replaceAll`): `s` is the input
from `searchPos` on, `gap` the input between `lastMatchEnd` and `searchPos`,
`first` says that `searchPos` is 0.  The replacement is not inserted for an
empty match right after another match, and the search always moves on by at
least one rune.  The replacement is taken literally, as Go does when it
holds no `$`. -/
def Regexp.replaceLoop (re : Regexp) (repl : GoString) :
    Nat → List Cell → List Cell → Bool → GoString
  | 0, s, gap, _ => cellBytes gap ++ cellBytes s
  | fuel + 1, s, gap, first =>
    match re.find s with
    | none => cellBytes gap ++ cellBytes s
    | some (skipped, rest) =>
      cellBytes gap ++ cellBytes skipped
        ++ (if skipped.length + rest.length < s.length ∨ skipped ≠ [] ∨ gap ≠ [] ∨ first = true
            then repl else [])
        ++ (if skipped = [] ∧ rest.length = s.length then
              match rest with
              | [] => []
              | c :: rest' => Regexp.replaceLoop re repl fuel rest' [c] false
            else Regexp.replaceLoop re repl fuel rest [] false)

def Regexp.ReplaceAllString (re : Regexp) (src repl : GoString) : GoString :=
  Regexp.replaceLoop re repl (src.length + 1) (cells src) [] true

/-- The struct `RegexpNormalizer`. -/
structure RegexpNormalizer where
  Regexp : Regexp
  ReplacementString : GoString

/-- `NewRegexpNormalizer`, with the pattern given as the syntax tree that
`regexp.MustCompile` builds from it. -/
def NewRegexpNormalizer (regularExpression : Regexp) (replacementString : GoString) :
    RegexpNormalizer :=
  { Regexp := regularExpression, ReplacementString := replacementString }

def RegexpNormalizer.Normalize (normalizer : RegexpNormalizer) (text : GoString) : GoString :=
  normalizer.Regexp.ReplaceAllString text normalizer.ReplacementString

def RegexpNormalizer.toNormalizer (n : RegexpNormalizer) : Normalizer :=
  { Normalize := n.Normalize }

def Regexp.plus (x : Regexp) : Regexp := .cat x (.star x)
def Regexp.quest (x : Regexp) : Regexp := .alt x .empty

/-- The pattern `x{0,n}`: `(x(x(...)?)?)?`, greedy. -/
def Regexp.upTo (x : Regexp) : Nat → Regexp
  | 0 => .empty
  | n + 1 => Regexp.quest (.cat x (Regexp.upTo x n))

/-- The pattern `x{3,9}`: three times `x`, then up to six more, greedily. -/
def Regexp.rep3to9 (x : Regexp) : Regexp :=
  .cat x (.cat x (.cat x (Regexp.upTo x 6)))

/-- A literal string inside a pattern. -/
def Regexp.str : List Nat → Regexp
  | [] => .empty
  | c :: cs => .cat (.char c) (Regexp.str cs)

/-- The class `\w`. -/
def wordRanges : List (Nat × Nat) := [(0x30, 0x39), (0x41, 0x5A), (0x5F, 0x5F), (0x61, 0x7A)]

/-- The class `[A-Za-z]`. -/
def letterRanges : List (Nat × Nat) := [(0x41, 0x5A), (0x61, 0x7A)]

/-- The class `[A-Za-z0-9.-]`. -/
def hostRanges : List (Nat × Nat) :=
  [(0x41, 0x5A), (0x61, 0x7A), (0x30, 0x39), (0x2E, 0x2E), (0x2D, 0x2D)]

/-- The class `[-;:&=\+\$,\w]`. -/
def userRanges : List (Nat × Nat) :=
  [(0x2D, 0x2D), (0x3B, 0x3B), (0x3A, 0x3A), (0x26, 0x26), (0x3D, 0x3D), (0x2B, 0x2B),
   (0x24, 0x24), (0x2C, 0x2C)] ++ wordRanges

/-- The class `[\+~%\/.\w-_]`. -/
def pathRanges : List (Nat × Nat) :=
  [(0x2B, 0x2B), (0x7E, 0x7E), (0x25, 0x25), (0x2F, 0x2F), (0x2E, 0x2E)] ++ wordRanges
    ++ [(0x2D, 0x2D), (0x5F, 0x5F)]

/-- The class `[-\+=&;%@.\w_]`. -/
def queryRanges : List (Nat × Nat) :=
  [(0x2D, 0x2D), (0x2B, 0x2B), (0x3D, 0x3D), (0x26, 0x26), (0x3B, 0x3B), (0x25, 0x25),
   (0x40, 0x40), (0x2E, 0x2E)] ++ wordRanges ++ [(0x5F, 0x5F)]

/-- The line break inside the raw string literal of
`NewUrlReplacementNormalizer`: a newline and 21 tabs; each continuation line
then has one space.  A raw string keeps these characters and `regexp`
matches them literally. -/
def lineBreakTabs : List Nat := 0x0A :: List.replicate 21 0x09

/-- The part `([A-Za-z]{3,9}:(?:\/\/)?)` of the URL patterns. -/
def schemePart : Regexp :=
  .cat (Regexp.rep3to9 (.cls letterRanges))
    (.cat (.char 0x3A) (Regexp.quest (Regexp.str [0x2F, 0x2F])))

/-- The part `(?:[-;:&=\+\$,\w]+@)` of the URL patterns. -/
def userPart : Regexp := .cat (Regexp.plus (.cls userRanges)) (.char 0x40)

/-- The part `(?:www.|[-;:&=\+\$,\w]+@)` of the URL patterns. -/
def wwwPart : Regexp := .alt (.cat (Regexp.str [0x77, 0x77, 0x77]) .anyNotNL) userPart

/-- The pattern of `NewUrlReplacementNormalizer`, as its raw string literal
spells it, line breaks and indentation included:
`((([A-Za-z]{3,9}:(?:\/\/)?)` BREAK ` (?:[-;:&=\+\$,\w]+@)?[A-Za-z0-9.-]+|`
BREAK ` (?:www.|[-;:&=\+\$,\w]+@)` BREAK ` [A-Za-z0-9.-]+)((?:\/[\+~%\/.\w-_]*)?`
BREAK ` \??(?:[-\+=&;%@.\w_]*)#` BREAK ` ?(?:[\w]*))?)`.
In the last line the `?` follows the space of the indentation and makes that
space optional. -/
def urlRegexp : Regexp :=
  .cat
    (.alt
      (.cat schemePart
        (.cat (Regexp.str (lineBreakTabs ++ [0x20]))
          (.cat (Regexp.quest userPart) (Regexp.plus (.cls hostRanges)))))
      (.cat (Regexp.str (lineBreakTabs ++ [0x20]))
        (.cat wwwPart
          (.cat (Regexp.str (lineBreakTabs ++ [0x20])) (Regexp.plus (.cls hostRanges))))))
    (Regexp.quest
      (.cat (Regexp.quest (.cat (.char 0x2F) (.star (.cls pathRanges))))
        (.cat (Regexp.str (lineBreakTabs ++ [0x20]))
          (.cat (Regexp.quest (.char 0x3F))
            (.cat (.star (.cls queryRanges))
              (.cat (.char 0x23)
                (.cat (Regexp.str lineBreakTabs)
                  (.cat (Regexp.quest (.char 0x20)) (.star (.cls wordRanges))))))))))

/-- The pattern `urlRegexp` of `main` in `naive.go`, written on one line:
`((([A-Za-z]{3,9}:(?:\/\/)?)(?:[-;:&=\+\$,\w]+@)?[A-Za-z0-9.-]+|(?:www.|[-;:&=\+\$,\w]+@)[A-Za-z0-9.-]+)((?:\/[\+~%\/.\w-_]*)?\??(?:[-\+=&;%@.\w_]*)#?(?:[\w]*))?)`. -/
def naiveUrlRegexp : Regexp :=
  .cat
    (.alt
      (.cat schemePart (.cat (Regexp.quest userPart) (Regexp.plus (.cls hostRanges))))
      (.cat wwwPart (Regexp.plus (.cls hostRanges))))
    (Regexp.quest
      (.cat (Regexp.quest (.cat (.char 0x2F) (.star (.cls pathRanges))))
        (.cat (Regexp.quest (.char 0x3F))
          (.cat (.star (.cls queryRanges))
            (.cat (Regexp.quest (.char 0x23)) (.star (.cls wordRanges)))))))

def NewUrlReplacementNormalizer (replacementString : GoString) : RegexpNormalizer :=
  { Regexp := urlRegexp, ReplacementString := replacementString }

/-! ## The n-gram tokenizer -/

/-- The slice expression `s[lo:hi]` of a string, or of a slice whose capacity
is its length: it panics (`none`) unless `0 <= lo <= hi <= len(s)`. -/
def slice {α : Type} (s : List α) (lo hi : Int) : Option (List α) :=
  if 0 ≤ lo ∧ lo ≤ hi ∧ hi ≤ (s.length : Int) then
    some ((s.drop lo.toNat).take (hi.toNat - lo.toNat))
  else none

/-- The loop of `strings.Split(s, sep)` for a separator `sep` of one byte:
`rest` is what is still to be read and `word` the bytes read since the last
separator. -/
def splitLoop (sep : Nat) : GoString → GoString → List GoString
  | [], word => [word]
  | c :: rest, word =>
    if c = sep then word :: splitLoop sep rest [] else splitLoop sep rest (word ++ [c])

/-- The Go function `strings.Split(s, sep)` for a separator of one byte: the
substrings between the separators, `Count(s, sep) + 1` of them. -/
def stringsSplit (s : GoString) (sep : Nat) : List GoString := splitLoop sep s []

/-- The Go function `strings.Join(elems, sep)`. -/
def stringsJoin : List GoString → GoString → GoString
  | [], _ => []
  | [a], _ => a
  | a :: b :: rest, sep => a ++ sep ++ stringsJoin (b :: rest) sep

/-- The loop `for i := i0; i < bound; i++ { ngrams = append(ngrams, body(i)) }`
with `count = bound - i0` iterations left (none when `bound <= i0`); a panic
in the body ends the run.  `i` stays below `bound`, so `i++` cannot
overflow. -/
def appendLoop {α : Type} (body : Int → Option α) : Nat → Int → Option (List α)
  | 0, _ => some []
  | count + 1, i =>
    match body i with
    | none => none
    | some ngram =>
      match appendLoop body count (i + 1) with
      | none => none
      | some ngrams => some (ngram :: ngrams)

/-- The bound `len - steps + 1` of the tokenizer loops, in `int` arithmetic. -/
def loopBound (len : Nat) (steps : Int) : Int := wrapInt (wrapInt ((len : Int) - steps) + 1)

def Unigram : Int := 1
def Bigram : Int := 2
def Trigram : Int := 3

def WordLevel : GoString := lit "word"
def CharacterLevel : GoString := lit "character"

/-- The struct `NGramTokenizer`. -/
structure NGramTokenizer where
  steps : Int
  level : GoString

def NewNGramTokenizer (steps : Int) (level : GoString) : NGramTokenizer :=
  { steps := steps, level := level }

def NGramTokenizer.tokenizeCharacters (tokenizer : NGramTokenizer) (text : GoString) :
    Option (List GoString) :=
  appendLoop (fun i => slice text i (wrapInt (i + tokenizer.steps)))
    (loopBound text.length tokenizer.steps).toNat 0

def NGramTokenizer.tokenizeWords (tokenizer : NGramTokenizer) (text : GoString) :
    Option (List GoString) :=
  let splittedWords := stringsSplit text 0x20
  appendLoop (fun i =>
      match slice splittedWords i (wrapInt (i + tokenizer.steps)) with
      | none => none
      | some words => some (stringsJoin words (lit " ")))
    (loopBound splittedWords.length tokenizer.steps).toNat 0

/-- The method `TokenizeString`: `none` is a run-time panic, `some []` the nil slice. -/
def NGramTokenizer.TokenizeString (tokenizer : NGramTokenizer) (text : GoString) :
    Option (List GoString) :=
  if tokenizer.level = WordLevel then tokenizer.tokenizeWords text
  else if tokenizer.level = CharacterLevel then tokenizer.tokenizeCharacters text
  else some []

/-- The function `extractNGrams` of `naive.go`. -/
def extractNGrams (text : GoString) (steps : Int) : Option (List GoString) :=
  appendLoop (fun i => slice text i (wrapInt (i + steps))) (loopBound text.length steps).toNat 0

/-- The function `deleteEmoticons` of `naive.go`: the loop body over the runes
of the text (`WriteString("")` writes nothing). -/
def deleteEmoticonsWrite : List Nat → GoString
  | [] => []
  | runeValue :: rest =>
    (if rune 0x1F600 ≤ (runeValue : Int) ∧ (runeValue : Int) ≤ rune 0x1F64F then []
    else encodeRune runeValue) ++ deleteEmoticonsWrite rest

def deleteEmoticons (text : GoString) : GoString := deleteEmoticonsWrite (runes text)

/-! ## The demonstration of `main` -/

/-- The text `awesomeTweet` of `main` in `refactored.go`, with the
characters of the source file. -/
def awesomeTweet : GoString :=
  lit "Die @bedcon ist die groÃŸartigste #Konferenz des Jahres. http://bedcon.org"

/-- The strings that the chain of `main` removes. -/
def mainNormalizationStrings : List GoString :=
  [lit "?", lit ".", lit ",", lit "@", lit "-", lit "/", lit ":",
   lit "#", lit "!", lit ")", lit "(", lit "[", lit "]", lit "Â¿"]

/-- The chain of `main`. -/
def mainChain : ChainNormalizer :=
  NewChainNormalizer
    [NewLowerCaseNormalizer.toNormalizer,
     (NewUnicodeRangeNormalizerFromChart EmoticonChart (lit "")).toNormalizer,
     (NewUrlReplacementNormalizer (lit "")).toNormalizer,
     (NewStringReplacementNormalizer mainNormalizationStrings (lit "")).toNormalizer]

/-! ## Notions used to state the properties -/

/-- The concatenation of a list of strings. -/
def concatStrings : List GoString → GoString
  | [] => []
  | s :: ss => s ++ concatStrings ss

/-- The scalar values of the output of the range filter when the
replacement is the encoding of `rs`. -/
def replaceRunes (lo hi : Int) (rs : List Nat) : List Nat → List Nat
  | [] => []
  | v :: vs =>
    (if lo ≤ (v : Int) ∧ (v : Int) ≤ hi then rs else [v]) ++ replaceRunes lo hi rs vs

/-- The arguments the constructor means to pass: `s1, r, s2, r, ...`. -/
def flatPairs (r : GoString) : List GoString → List GoString
  | [] => []
  | s :: rest => s :: r :: flatPairs r rest

/-- A normalizer that replaces single scalar values, as the chain of `main`
uses them: a unicode range filter, or a string replacement whose configured
strings are single characters; `rs` are the scalar values of the
replacement string. -/
inductive ScalarReplacement where
  | range (startPoint endPoint : Int) (rs : List Nat) : ScalarReplacement
  | chars (bs : List Nat) (rs : List Nat) : ScalarReplacement

/-- The normalizer that the constructors of `refactored.go` build for it. -/
def ScalarReplacement.toNormalizer : ScalarReplacement → Normalizer
  | .range startPoint endPoint rs =>
    (NewUnicodeRangeNormalizer startPoint endPoint (utf8 rs)).toNormalizer
  | .chars bs rs =>
    (NewStringReplacementNormalizer (bs.map (fun b => [b])) (utf8 rs)).toNormalizer

theorem encodeRune_length_pos (r : Nat) : 0 < (encodeRune r).length := by
  unfold encodeRune
  split_ifs <;> simp

theorem decodeRune_two (b0 b1 : Nat) (rest : GoString) (h0 : 0xC0 ≤ b0 ∧ b0 < 0xE0)
    (h1 : isCont b1 = true) (hr : 0x7F < b0 % 32 * 64 + b1 % 64) :
    decodeRune (b0 :: b1 :: rest) = (b0 % 32 * 64 + b1 % 64, 2) := by
  have a1 : ¬ b0 < 128 := by omega
  simp only [decodeRune, a1, h0, h1, hr, if_true, if_false, and_self]

theorem decodeRune_three (b0 b1 b2 : Nat) (rest : GoString) (h0 : 0xE0 ≤ b0 ∧ b0 < 0xF0)
    (h1 : isCont b1 = true) (h2 : isCont b2 = true)
    (hr : 0x7FF < b0 % 16 * 4096 + b1 % 64 * 64 + b2 % 64 ∧
      ¬ (0xD800 ≤ b0 % 16 * 4096 + b1 % 64 * 64 + b2 % 64 ∧
        b0 % 16 * 4096 + b1 % 64 * 64 + b2 % 64 ≤ 0xDFFF)) :
    decodeRune (b0 :: b1 :: b2 :: rest) = (b0 % 16 * 4096 + b1 % 64 * 64 + b2 % 64, 3) := by
  have a1 : ¬ b0 < 128 := by omega
  have a2 : ¬ (0xC0 ≤ b0 ∧ b0 < 0xE0) := by omega
  simp only [decodeRune, a1, a2, h0, h1, h2, hr, if_true, if_false, and_self, Bool.and_self,
    not_false_eq_true]

theorem decodeRune_four (b0 b1 b2 b3 : Nat) (rest : GoString) (h0 : 0xF0 ≤ b0 ∧ b0 < 0xF8)
    (h1 : isCont b1 = true) (h2 : isCont b2 = true) (h3 : isCont b3 = true)
    (hr : 0xFFFF < b0 % 8 * 262144 + b1 % 64 * 4096 + b2 % 64 * 64 + b3 % 64 ∧
      b0 % 8 * 262144 + b1 % 64 * 4096 + b2 % 64 * 64 + b3 % 64 ≤ 0x10FFFF) :
    decodeRune (b0 :: b1 :: b2 :: b3 :: rest)
      = (b0 % 8 * 262144 + b1 % 64 * 4096 + b2 % 64 * 64 + b3 % 64, 4) := by
  have a1 : ¬ b0 < 128 := by omega
  have a2 : ¬ (0xC0 ≤ b0 ∧ b0 < 0xE0) := by omega
  have a3 : ¬ (0xE0 ≤ b0 ∧ b0 < 0xF0) := by omega
  simp only [decodeRune, a1, a2, a3, h0, h1, h2, h3, hr, if_true, if_false, and_self,
    Bool.and_self]

theorem isCont_low6 (x : Nat) : isCont (128 + x % 64) = true := by
  simp only [isCont, Bool.and_eq_true, decide_eq_true_eq]; omega

theorem decodeRune_encodeRune (v : Nat) (hv : isScalar v) (rest : GoString) :
    decodeRune (encodeRune v ++ rest) = (v, (encodeRune v).length) := by
  unfold isScalar at hv
  unfold encodeRune
  split_ifs with h1 h2 h3 h4
  · have : v < 128 := by omega
    simp only [List.singleton_append, decodeRune, this, if_true, List.length_singleton]
  · have e1 : (192 + v / 64) % 32 = v / 64 := by omega
    have e2 : (128 + v % 64) % 64 = v % 64 := by omega
    have a4 : (192 + v / 64) % 32 * 64 + (128 + v % 64) % 64 = v := by
      rw [e1, e2]; omega
    have key := decodeRune_two (192 + v / 64) (128 + v % 64) rest (by omega)
      (isCont_low6 v) (by rw [a4]; omega)
    rw [a4] at key
    exact key
  · omega
  · have e1 : (224 + v / 4096) % 16 = v / 4096 := by omega
    have e2 : (128 + v / 64 % 64) % 64 = v / 64 % 64 := by omega
    have e3 : (128 + v % 64) % 64 = v % 64 := by omega
    have a4 : (224 + v / 4096) % 16 * 4096 + (128 + v / 64 % 64) % 64 * 64
        + (128 + v % 64) % 64 = v := by
      rw [e1, e2, e3]; omega
    have key := decodeRune_three (224 + v / 4096) (128 + v / 64 % 64) (128 + v % 64) rest
      (by omega) (isCont_low6 _) (isCont_low6 _) (by rw [a4]; omega)
    rw [a4] at key
    exact key
  · have e1 : (240 + v / 262144) % 8 = v / 262144 := by omega
    have e2 : (128 + v / 4096 % 64) % 64 = v / 4096 % 64 := by omega
    have e3 : (128 + v / 64 % 64) % 64 = v / 64 % 64 := by omega
    have e4 : (128 + v % 64) % 64 = v % 64 := by omega
    have a4 : (240 + v / 262144) % 8 * 262144 + (128 + v / 4096 % 64) % 64 * 4096
        + (128 + v / 64 % 64) % 64 * 64 + (128 + v % 64) % 64 = v := by
      rw [e1, e2, e3, e4]; omega
    have key := decodeRune_four (240 + v / 262144) (128 + v / 4096 % 64)
      (128 + v / 64 % 64) (128 + v % 64) rest
      (by omega) (isCont_low6 _) (isCont_low6 _) (isCont_low6 _) (by rw [a4]; omega)
    rw [a4] at key
    exact key

theorem runesAux_utf8 (cs : List Nat) (hcs : ∀ v ∈ cs, isScalar v) :
    ∀ fuel, (utf8 cs).length ≤ fuel → runesAux fuel (utf8 cs) = cs := by
  induction cs with
  | nil => intro fuel _; cases fuel <;> rfl
  | cons c cs ih =>
    intro fuel hfuel
    have hc : isScalar c := hcs c (List.mem_cons_self _ _)
    have hpos := encodeRune_length_pos c
    have hdec := decodeRune_encodeRune c hc (utf8 cs)
    have hlen : (utf8 (c :: cs)).length = (encodeRune c).length + (utf8 cs).length := by
      simp [utf8]
    cases fuel with
    | zero => omega
    | succ f =>
      cases hu : utf8 (c :: cs) with
      | nil => rw [hu] at hlen; simp at hlen; omega
      | cons b bs =>
        have hu' : b :: bs = encodeRune c ++ utf8 cs := by rw [← hu]; rfl
        simp only [runesAux]
        rw [hu', hdec]
        simp only [List.drop_left]
        rw [ih (fun v hv => hcs v (List.mem_cons_of_mem _ hv)) f (by omega)]

/-- Decoding the UTF-8 encoding of scalar values gives them back. -/
theorem runes_utf8 (cs : List Nat) (hcs : ∀ v ∈ cs, isScalar v) : runes (utf8 cs) = cs :=
  runesAux_utf8 cs hcs _ (Nat.le_refl _)

theorem utf8_append (xs ys : List Nat) : utf8 (xs ++ ys) = utf8 xs ++ utf8 ys := by
  induction xs with
  | nil => rfl
  | cons x xs ih => simp [utf8, ih]

theorem rune_eq_self (x : Int) (h : -2147483648 ≤ x ∧ x < 2147483648) : rune x = x := by
  unfold rune; omega

theorem write_eq_concat (n : UnicodeRangeNormalizer) (rs : List Nat) :
    n.write rs = concatStrings (rs.map (fun (v : Nat) =>
      if rune n.StartPoint ≤ (v : Int) ∧ (v : Int) ≤ rune n.EndPoint
      then n.ReplacementString else encodeRune v)) := by
  induction rs with
  | nil => rfl
  | cons r rs ih => simp only [UnicodeRangeNormalizer.write, List.map, concatStrings, ih]

theorem write_utf8 (n : UnicodeRangeNormalizer) (rs : List Nat)
    (hr : n.ReplacementString = utf8 rs) (cs : List Nat) :
    n.write cs = utf8 (replaceRunes (rune n.StartPoint) (rune n.EndPoint) rs cs) := by
  induction cs with
  | nil => rfl
  | cons c cs ih =>
    simp only [UnicodeRangeNormalizer.write, replaceRunes, utf8_append, ih, hr]
    split_ifs <;> simp [utf8]

theorem mem_replaceRunes (lo hi : Int) (rs cs : List Nat) (v : Nat)
    (hv : v ∈ replaceRunes lo hi rs cs) :
    v ∈ rs ∨ (v ∈ cs ∧ ¬ (lo ≤ (v : Int) ∧ (v : Int) ≤ hi)) := by
  induction cs with
  | nil => simp [replaceRunes] at hv
  | cons c cs ih =>
    simp only [replaceRunes, List.mem_append] at hv
    rcases hv with h | h
    · split_ifs at h with hc
      · exact Or.inl h
      · simp only [List.mem_singleton] at h
        subst h
        exact Or.inr ⟨List.mem_cons_self _ _, hc⟩
    · rcases ih h with h' | h'
      · exact Or.inl h'
      · exact Or.inr ⟨List.mem_cons_of_mem _ h'.1, h'.2⟩

/-! ## Facts about the tokenizer loops -/

theorem wrapInt_eq_self (x : Int)
    (h : -9223372036854775808 ≤ x ∧ x < 9223372036854775808) : wrapInt x = x := by
  unfold wrapInt; omega

theorem slice_eq_some {α : Type} (s : List α) (lo hi : Int)
    (h : 0 ≤ lo ∧ lo ≤ hi ∧ hi ≤ (s.length : Int)) :
    slice s lo hi = some ((s.drop lo.toNat).take (hi.toNat - lo.toNat)) := by
  unfold slice; rw [if_pos h]

theorem appendLoop_eq_some {α : Type} (body : Int → Option α) (g : Int → α) :
    ∀ (count : Nat) (i0 : Int),
      (∀ k : Nat, k < count → body (i0 + k) = some (g (i0 + k))) →
      appendLoop body count i0 = some ((List.range count).map (fun k : Nat => g (i0 + k))) := by
  intro count
  induction count with
  | zero => intro i0 _; rfl
  | succ n ih =>
    intro i0 h
    have h0 : body i0 = some (g i0) := by
      have := h 0 (Nat.succ_pos n)
      simpa using this
    have hrest : ∀ k : Nat, k < n → body (i0 + 1 + k) = some (g (i0 + 1 + k)) := by
      intro k hk
      have := h (k + 1) (Nat.succ_lt_succ hk)
      have e : i0 + ((k + 1 : Nat) : Int) = i0 + 1 + (k : Int) := by push_cast; ring
      rw [e] at this
      exact this
    simp only [appendLoop, h0, ih (i0 + 1) hrest]
    rw [List.range_succ_eq_map]
    simp only [List.map_cons, List.map_map, Nat.cast_zero, add_zero]
    congr 2
    apply List.map_congr_left
    intro k _
    simp only [Function.comp, Nat.succ_eq_add_one]
    congr 1
    push_cast; ring

theorem splitLoop_length (sep : Nat) (s : GoString) :
    ∀ word : GoString, (splitLoop sep s word).length = s.count sep + 1 := by
  induction s with
  | nil => intro word; rfl
  | cons c rest ih =>
    intro word
    by_cases hc : c = sep
    · subst hc
      simp [splitLoop, ih]
    · have hne : ¬ (c == sep) = true := by simpa using hc
      simp [splitLoop, hc, ih, List.count_cons, hne]

theorem splitLoop_ne_nil (sep : Nat) (s word : GoString) : splitLoop sep s word ≠ [] := by
  intro h
  have := splitLoop_length sep s word
  rw [h] at this
  simp at this

theorem stringsJoin_cons (a : GoString) (ws : List GoString) (sep : GoString) (h : ws ≠ []) :
    stringsJoin (a :: ws) sep = a ++ sep ++ stringsJoin ws sep := by
  cases ws with
  | nil => exact absurd rfl h
  | cons b rest => rfl

theorem stringsJoin_splitLoop (sep : Nat) (s : GoString) :
    ∀ word : GoString, stringsJoin (splitLoop sep s word) [sep] = word ++ s := by
  induction s with
  | nil => intro word; simp [splitLoop, stringsJoin]
  | cons c rest ih =>
    intro word
    by_cases hc : c = sep
    · subst hc
      simp only [splitLoop, if_true]
      rw [stringsJoin_cons _ _ _ (splitLoop_ne_nil _ _ _), ih]
      simp
    · simp only [splitLoop, hc, if_false]
      rw [ih]
      simp

theorem loopBound_eq (len : Nat) (w : Nat) (hw : 1 ≤ w)
    (hwmax : (w : Int) < 9223372036854775808) (hlen : (len : Int) < 9223372036854775808) :
    (loopBound len (w : Int)).toNat = len + 1 - w := by
  unfold loopBound wrapInt; omega

theorem count_le_length (sep : Nat) (s : GoString) : s.count sep ≤ s.length :=
  List.count_le_length sep s

/-- The word loop for a window `w >= 1` over `words`: one item per start index. -/
theorem wordLoop_eq (words : List GoString) (w : Nat) (hw : 1 ≤ w)
    (hwmax : (w : Int) < 9223372036854775808)
    (hlen : (words.length : Int) < 9223372036854775808) (sep : GoString) :
    appendLoop (fun i =>
        match slice words i (wrapInt (i + (w : Int))) with
        | none => none
        | some ws => some (stringsJoin ws sep))
      (loopBound words.length (w : Int)).toNat 0
    = some ((List.range (words.length + 1 - w)).map (fun i : Nat =>
        stringsJoin ((words.drop i).take w) sep)) := by
  rw [loopBound_eq _ _ hw hwmax hlen]
  rw [appendLoop_eq_some _ (fun i : Int => stringsJoin ((words.drop i.toNat).take w) sep)]
  · congr 1
    apply List.map_congr_left
    intro k _
    simp
  · intro k hk
    have hwrap : wrapInt (0 + (k : Int) + (w : Int)) = (k : Int) + (w : Int) := by
      rw [wrapInt_eq_self] <;> omega
    simp only [hwrap]
    rw [slice_eq_some _ _ _ (by omega)]
    have e1 : (0 + (k : Int)).toNat = k := by omega
    have e2 : ((k : Int) + (w : Int)).toNat - k = w := by omega
    simp only [e1, e2]

/-- The character loop for a window `w >= 1`: one item per start index. -/
theorem charLoop_eq (text : GoString) (w : Nat) (hw : 1 ≤ w)
    (hwmax : (w : Int) < 9223372036854775808)
    (hlen : (text.length : Int) < 9223372036854775808) :
    appendLoop (fun i => slice text i (wrapInt (i + (w : Int))))
      (loopBound text.length (w : Int)).toNat 0
    = some ((List.range (text.length + 1 - w)).map (fun i : Nat => (text.drop i).take w)) := by
  rw [loopBound_eq _ _ hw hwmax hlen]
  rw [appendLoop_eq_some _ (fun i : Int => (text.drop i.toNat).take w)]
  · congr 1
    apply List.map_congr_left
    intro k _
    simp
  · intro k hk
    have hwrap : wrapInt (0 + (k : Int) + (w : Int)) = (k : Int) + (w : Int) := by
      rw [wrapInt_eq_self] <;> omega
    simp only [hwrap]
    rw [slice_eq_some _ _ _ (by omega)]
    have e1 : (0 + (k : Int)).toNat = k := by omega
    have e2 : ((k : Int) + (w : Int)).toNat - k = w := by omega
    simp only [e1, e2]

theorem lit_space : lit " " = [0x20] := by decide

theorem wordLevel_ne_characterLevel : ¬ (CharacterLevel = WordLevel) := by decide

theorem appendLoop_isSome {α : Type} (body : Int → Option α) :
    ∀ (count : Nat) (i0 : Int),
      (∀ k : Nat, k < count → (body (i0 + k)).isSome = true) →
      (appendLoop body count i0).isSome = true := by
  intro count
  induction count with
  | zero => intro i0 _; rfl
  | succ n ih =>
    intro i0 h
    have h0 : (body i0).isSome = true := by
      have := h 0 (Nat.succ_pos n)
      simpa using this
    have hrest : ∀ k : Nat, k < n → (body (i0 + 1 + k)).isSome = true := by
      intro k hk
      have := h (k + 1) (Nat.succ_lt_succ hk)
      have e : i0 + ((k + 1 : Nat) : Int) = i0 + 1 + (k : Int) := by push_cast; ring
      rw [e] at this
      exact this
    have h1 := ih (i0 + 1) hrest
    obtain ⟨a, ha⟩ := Option.isSome_iff_exists.mp h0
    obtain ⟨r, hr⟩ := Option.isSome_iff_exists.mp h1
    simp only [appendLoop, ha, hr, Option.isSome_some]

/-- With `steps >= 0` every slice the tokenizer loops evaluate is in bounds. -/
theorem slice_in_loop_isSome {α : Type} (s : List α) (steps : Int) (h0 : 0 ≤ steps)
    (hs : steps < 9223372036854775808) (hlen : (s.length : Int) < 9223372036854775808)
    (k : Nat) (hk : k < (loopBound s.length steps).toNat) :
    (slice s (0 + (k : Int)) (wrapInt (0 + (k : Int) + steps))).isSome = true := by
  unfold loopBound wrapInt at hk
  have hb : 0 ≤ (0 + (k : Int)) ∧ 0 + (k : Int) ≤ wrapInt (0 + (k : Int) + steps)
      ∧ wrapInt (0 + (k : Int) + steps) ≤ (s.length : Int) := by
    unfold wrapInt; omega
  rw [slice_eq_some _ _ _ hb]
  rfl

theorem tokenizeWords_eq (text : GoString) (w : Nat) (hw : 1 ≤ w)
    (hwmax : (w : Int) < 9223372036854775808)
    (hlen : (text.length : Int) < 9223372036854775807) :
    (NewNGramTokenizer (w : Int) WordLevel).TokenizeString text
        = some ((List.range ((stringsSplit text 0x20).length + 1 - w)).map (fun i : Nat =>
            stringsJoin (((stringsSplit text 0x20).drop i).take w) (lit " "))) := by
  have hn : (stringsSplit text 0x20).length = text.count 0x20 + 1 := splitLoop_length _ _ _
  have hc := count_le_length 0x20 text
  simp only [NGramTokenizer.TokenizeString, NewNGramTokenizer, if_true,
    NGramTokenizer.tokenizeWords]
  exact wordLoop_eq _ w hw hwmax (by omega) _

/-! ## Facts about the string replacement -/

theorem appendReplacerStrings_eq (r : GoString) (ss : List GoString) :
    ∀ acc : List GoString, appendReplacerStrings r ss acc = acc ++ flatPairs r ss := by
  induction ss with
  | nil => intro acc; simp [appendReplacerStrings, flatPairs]
  | cons s rest ih => intro acc; simp [appendReplacerStrings, flatPairs, ih]

theorem replacerStrings_eq (ss : List GoString) (r : GoString) :
    replacerStrings ss r = List.replicate (2 * ss.length) [] ++ flatPairs r ss := by
  unfold replacerStrings; rw [appendReplacerStrings_eq]

theorem oldnewPairs_replicate (n : Nat) (xs : List GoString) :
    oldnewPairs (List.replicate (2 * n) [] ++ xs)
      = List.replicate n (([] : GoString), ([] : GoString)) ++ oldnewPairs xs := by
  induction n with
  | zero => simp
  | succ k ih =>
    have e : 2 * (k + 1) = (2 * k + 1) + 1 := by ring
    rw [e, List.replicate_succ, List.replicate_succ, List.replicate_succ]
    simp only [List.cons_append, oldnewPairs]
    exact congrArg _ ih

theorem oldnewPairs_flatPairs (r : GoString) (ss : List GoString) :
    oldnewPairs (flatPairs r ss) = ss.map (fun s => (s, r)) := by
  induction ss with
  | nil => rfl
  | cons s rest ih => simp [flatPairs, oldnewPairs, ih]

/-- The pairs the replacer of the constructor works with: first one pair of
empty strings per configured string, then the pairs `(s, r)`. -/
theorem pairs_of_constructor (ss : List GoString) (r : GoString) :
    oldnewPairs (replacerStrings ss r)
      = List.replicate ss.length (([] : GoString), ([] : GoString))
        ++ ss.map (fun s => (s, r)) := by
  rw [replacerStrings_eq, oldnewPairs_replicate, oldnewPairs_flatPairs]

theorem lookup_some_mem (pairs : List (GoString × GoString)) (s : GoString) (b : Bool)
    (val : GoString) (k : Nat) (h : Replacer.lookup pairs s b = some (val, k)) :
    ∃ old, (old, val) ∈ pairs ∧ old.length = k ∧ old.isPrefixOf s = true
      ∧ ¬ (b = true ∧ old = []) := by
  induction pairs with
  | nil => simp [Replacer.lookup] at h
  | cons p rest ih =>
    obtain ⟨old, new⟩ := p
    simp only [Replacer.lookup] at h
    split_ifs at h with hc
    · simp only [Option.some.injEq, Prod.mk.injEq] at h
      exact ⟨old, by rw [← h.1]; exact List.mem_cons_self _ _, h.2, hc.1, hc.2⟩
    · obtain ⟨o, ho, h2⟩ := ih h
      exact ⟨o, List.mem_cons_of_mem _ ho, h2⟩

theorem lookup_ne_none (pairs : List (GoString × GoString)) (s : GoString) (b : Bool)
    (old new : GoString) (hmem : (old, new) ∈ pairs) (hpre : old.isPrefixOf s = true)
    (hne : old ≠ []) : Replacer.lookup pairs s b ≠ none := by
  induction pairs with
  | nil => simp at hmem
  | cons p rest ih =>
    obtain ⟨o, n⟩ := p
    simp only [Replacer.lookup]
    split_ifs with hc
    · simp
    · rcases List.mem_cons.mp hmem with h | h
      · simp only [Prod.mk.injEq] at h
        exfalso
        apply hc
        rw [← h.1]
        exact ⟨hpre, fun hh => hne hh.2⟩
      · exact ih h

theorem prefix_length_le (old s : GoString) (h : old.isPrefixOf s = true) :
    old.length ≤ s.length := by
  have := List.isPrefixOf_iff_prefix.mp h
  exact this.length_le

/-- What the replacer loop writes: bytes of `pending`, bytes of new strings,
and bytes of the text at which no old string matched. -/
theorem loop_bytes (pairs : List (GoString × GoString)) (Bad : Nat → Prop)
    (hnew : ∀ p ∈ pairs, ∀ c ∈ p.2, ¬ Bad c)
    (hold : ∀ c, Bad c → ∃ new, ([c], new) ∈ pairs) :
    ∀ (fuel : Nat) (rest pending : GoString) (prev : Bool),
      2 * rest.length + (if prev = true then 1 else 2) ≤ fuel →
      (∀ c ∈ pending, ¬ Bad c) →
      ∀ c ∈ Replacer.loop pairs fuel rest pending prev, ¬ Bad c := by
  intro fuel
  induction fuel with
  | zero =>
    intro rest pending prev hm
    split_ifs at hm <;> omega
  | succ f ih =>
    intro rest pending prev hm hp c hc
    simp only [Replacer.loop] at hc
    cases hl : Replacer.lookup pairs rest prev with
    | some vk =>
      obtain ⟨val, k⟩ := vk
      rw [hl] at hc
      simp only [List.mem_append] at hc
      obtain ⟨old, hmem, hk, hpre, hroot⟩ := lookup_some_mem _ _ _ _ _ hl
      have hlen := prefix_length_le _ _ hpre
      rcases hc with (h | h) | h
      · exact hp c h
      · exact hnew _ hmem c h
      · refine ih (rest.drop k) [] (k == 0) ?_ (by simp) c h
        have hd : (rest.drop k).length = rest.length - k := List.length_drop _ _
        by_cases hk0 : k = 0
        · subst hk0
          have hold0 : old = [] := List.length_eq_zero.mp hk
          have hprev : prev = false := by
            cases prev with
            | false => rfl
            | true => exact absurd ⟨rfl, hold0⟩ hroot
          subst hprev
          simp at hm ⊢
          omega
        · have : (k == 0) = false := by simpa using hk0
          rw [this, hd]
          split_ifs at hm <;> simp <;> omega
    | none =>
      rw [hl] at hc
      cases rest with
      | nil => exact hp c hc
      | cons x rest' =>
        simp only at hc
        have hx : ¬ Bad x := by
          intro hbad
          obtain ⟨new, hmem⟩ := hold x hbad
          exact lookup_ne_none pairs (x :: rest') prev [x] new hmem (by simp [List.isPrefixOf])
            (by simp) hl
        refine ih rest' (pending ++ [x]) false ?_ ?_ c hc
        · simp only [List.length_cons] at hm
          split_ifs at hm <;> simp <;> omega
        · intro d hd
          rcases List.mem_append.mp hd with h | h
          · exact hp d h
          · simp only [List.mem_singleton] at h
            rw [h]; exact hx

theorem occurs_iff_mem (c : Nat) (l : GoString) : c ∈ l ↔ [c] <:+: l := by
  constructor
  · intro h
    obtain ⟨s, t, rfl⟩ := List.append_of_mem h
    exact ⟨s, t, by simp⟩
  · intro h
    exact h.subset (List.mem_singleton_self c)

/-- C1: `ChainNormalizer.Normalize` on `NewChainNormalizer(ns...)` is the left
fold of the text through `ns` in construction order; the empty chain returns
the text unchanged and the chain `[a, b]` returns `b.Normalize(a.Normalize(t))`. -/
theorem chain_normalize_is_left_fold (ns : List Normalizer) (t : GoString) :
    (NewChainNormalizer ns).Normalize t = ns.foldl (fun acc n => n.Normalize acc) t
    ∧ (NewChainNormalizer []).Normalize t = t
    ∧ ∀ a b : Normalizer, (NewChainNormalizer [a, b]).Normalize t
        = b.Normalize (a.Normalize t) := by
  refine ⟨?_, rfl, fun _ _ => rfl⟩
  show ChainNormalizer.loop ns t = _
  induction ns generalizing t with
  | nil => rfl
  | cons n ns ih => simp only [ChainNormalizer.loop, List.foldl, ih]

/-- C2: for bounds inside the scalar range and a well-formed text (the UTF-8
encoding of the scalar values `cs`), `UnicodeRangeNormalizer.Normalize` returns
the concatenation, in order, of `r` for each scalar value in `[start, end]` and
of the value itself otherwise; the pass is single, a value in the range is
replaced by `r` whatever `r` contains. -/
theorem unicodeRange_normalize_single_pass (startPoint endPoint : Int)
    (hs : 0 ≤ startPoint ∧ startPoint ≤ 0x10FFFF) (he : 0 ≤ endPoint ∧ endPoint ≤ 0x10FFFF)
    (r : GoString) (cs : List Nat) (hcs : ∀ v ∈ cs, isScalar v) :
    (NewUnicodeRangeNormalizer startPoint endPoint r).Normalize (utf8 cs)
      = concatStrings (cs.map (fun (v : Nat) =>
          if startPoint ≤ (v : Int) ∧ (v : Int) ≤ endPoint then r else utf8 [v]))
    ∧ ∀ v : Nat, isScalar v → startPoint ≤ (v : Int) → (v : Int) ≤ endPoint →
        (NewUnicodeRangeNormalizer startPoint endPoint r).Normalize (utf8 [v]) = r := by
  have h1 : rune startPoint = startPoint := rune_eq_self _ (by omega)
  have h2 : rune endPoint = endPoint := rune_eq_self _ (by omega)
  have key : ∀ ds : List Nat, (∀ v ∈ ds, isScalar v) →
      (NewUnicodeRangeNormalizer startPoint endPoint r).Normalize (utf8 ds)
      = concatStrings (ds.map (fun (v : Nat) =>
          if startPoint ≤ (v : Int) ∧ (v : Int) ≤ endPoint then r else utf8 [v])) := by
    intro ds hds
    unfold UnicodeRangeNormalizer.Normalize
    rw [runes_utf8 ds hds, write_eq_concat]
    simp only [NewUnicodeRangeNormalizer, h1, h2, utf8, List.append_nil]
  refine ⟨key cs hcs, ?_⟩
  intro v hv hlo hhi
  rw [key [v] (by intro w hw; simp at hw; rw [hw]; exact hv)]
  simp [concatStrings, hlo, hhi]

theorem unicodeRange_normalize_single_pass_witness :
    (NewUnicodeRangeNormalizer 0x61 0x63 (lit "b")).Normalize (utf8 [0x61, 0xDF, 0x62, 0x1F600])
      = concatStrings ([0x61, 0xDF, 0x62, 0x1F600].map (fun (v : Nat) =>
          if (0x61 : Int) ≤ (v : Int) ∧ (v : Int) ≤ 0x63 then lit "b" else utf8 [v]))
    ∧ ∀ v : Nat, isScalar v → (0x61 : Int) ≤ (v : Int) → (v : Int) ≤ 0x63 →
        (NewUnicodeRangeNormalizer 0x61 0x63 (lit "b")).Normalize (utf8 [v]) = lit "b" :=
  unicodeRange_normalize_single_pass 0x61 0x63 (by decide) (by decide) (lit "b")
    [0x61, 0xDF, 0x62, 0x1F600] (by decide)

/-- C3 fails for a replacement that is not well-formed: with the range
[0xDF, 0xDF] and the replacement bytes 9F C3 (two invalid bytes, read as
U+FFFD U+FFFD), the text "ßß" becomes 9F C3 9F C3, whose middle bytes C3 9F
are the scalar value 0xDF again. -/
theorem unicodeRange_illformed_replacement_reintroduces :
    runes [0x9F, 0xC3] = [0xFFFD, 0xFFFD]
    ∧ (NewUnicodeRangeNormalizer 0xDF 0xDF [0x9F, 0xC3]).Normalize (utf8 [0xDF, 0xDF])
        = [0x9F, 0xC3, 0x9F, 0xC3]
    ∧ runes ((NewUnicodeRangeNormalizer 0xDF 0xDF [0x9F, 0xC3]).Normalize (utf8 [0xDF, 0xDF]))
        = [0xFFFD, 0xDF, 0xFFFD] := by
  decide

/-- C3, amended: for bounds that fit a rune, a well-formed replacement (the
encoding of scalar values `rs`) none of which lies in `[start, end]`, and a
well-formed text, the output contains no scalar value in `[start, end]`, and
it is well-formed: it is the UTF-8 encoding of a sequence of scalar values,
the ones a `range` loop reads from it. -/
theorem unicodeRange_output_has_no_value_in_range (startPoint endPoint : Int)
    (hs : -2147483648 ≤ startPoint ∧ startPoint < 2147483648)
    (he : -2147483648 ≤ endPoint ∧ endPoint < 2147483648)
    (rs : List Nat)
    (hrs : ∀ v ∈ rs, isScalar v ∧ ¬ (startPoint ≤ (v : Int) ∧ (v : Int) ≤ endPoint))
    (cs : List Nat) (hcs : ∀ v ∈ cs, isScalar v) :
    ¬ (∃ v ∈ runes ((NewUnicodeRangeNormalizer startPoint endPoint (utf8 rs)).Normalize
          (utf8 cs)), startPoint ≤ (v : Int) ∧ (v : Int) ≤ endPoint)
    ∧ (∃ ds : List Nat, (∀ v ∈ ds, isScalar v)
        ∧ (NewUnicodeRangeNormalizer startPoint endPoint (utf8 rs)).Normalize (utf8 cs)
            = utf8 ds
        ∧ runes ((NewUnicodeRangeNormalizer startPoint endPoint (utf8 rs)).Normalize (utf8 cs))
            = ds) := by
  have h1 : rune startPoint = startPoint := rune_eq_self _ hs
  have h2 : rune endPoint = endPoint := rune_eq_self _ he
  have hout : (NewUnicodeRangeNormalizer startPoint endPoint (utf8 rs)).Normalize (utf8 cs)
      = utf8 (replaceRunes startPoint endPoint rs cs) := by
    unfold UnicodeRangeNormalizer.Normalize
    rw [runes_utf8 cs hcs, write_utf8 _ rs rfl]
    simp only [NewUnicodeRangeNormalizer, h1, h2]
  have hall : ∀ v ∈ replaceRunes startPoint endPoint rs cs,
      isScalar v ∧ ¬ (startPoint ≤ (v : Int) ∧ (v : Int) ≤ endPoint) := by
    intro v hv
    rcases mem_replaceRunes _ _ _ _ _ hv with h | h
    · exact hrs v h
    · exact ⟨hcs v h.1, h.2⟩
  have hrunes := runes_utf8 _ (fun v hv => (hall v hv).1)
  rw [hout, hrunes]
  exact ⟨fun ⟨v, hv, hin⟩ => (hall v hv).2 hin,
    ⟨replaceRunes startPoint endPoint rs cs, fun v hv => (hall v hv).1, rfl, rfl⟩⟩

theorem unicodeRange_output_has_no_value_in_range_witness :
    ¬ (∃ v ∈ runes ((NewUnicodeRangeNormalizer 0x1F600 0x1F64F (utf8 [0x2A])).Normalize
          (utf8 [0x61, 0x1F600, 0xDF, 0x1F64F, 0x1F650])),
        (0x1F600 : Int) ≤ (v : Int) ∧ (v : Int) ≤ 0x1F64F)
    ∧ (∃ ds : List Nat, (∀ v ∈ ds, isScalar v)
        ∧ (NewUnicodeRangeNormalizer 0x1F600 0x1F64F (utf8 [0x2A])).Normalize
            (utf8 [0x61, 0x1F600, 0xDF, 0x1F64F, 0x1F650]) = utf8 ds
        ∧ runes ((NewUnicodeRangeNormalizer 0x1F600 0x1F64F (utf8 [0x2A])).Normalize
            (utf8 [0x61, 0x1F600, 0xDF, 0x1F64F, 0x1F650])) = ds) :=
  unicodeRange_output_has_no_value_in_range 0x1F600 0x1F64F (by decide) (by decide)
    [0x2A] (by decide) [0x61, 0x1F600, 0xDF, 0x1F64F, 0x1F650] (by decide)

/-- C4 fails on a multi-byte character: the text "ß" has one scalar value
(L = 1), yet with window 1 the character-level tokenizer returns two items,
the single bytes C3 and 9F, and with window 2 (L < w) it returns one item
instead of none: the loop counts and slices bytes. -/
theorem tokenizeCharacters_counts_bytes :
    runes (lit "ß") = [0xDF]
    ∧ (NewNGramTokenizer 1 CharacterLevel).TokenizeString (lit "ß") = some [[0xC3], [0x9F]]
    ∧ (NewNGramTokenizer 2 CharacterLevel).TokenizeString (lit "ß") = some [[0xC3, 0x9F]] := by
  decide

/-- C5: word-level tokenization with a window `w >= 1` splits the text on
every single space (`k` spaces give `k + 1` words, the empty text one empty
word, two adjacent spaces an empty word) and returns, for `n` words,
`max(0, n - w + 1)` items in order, item `i` being the words `i .. i+w-1`
joined by single spaces; "a b c d" with window 2 gives "a b", "b c", "c d". -/
theorem tokenizeWords_windows (text : GoString) (w : Nat) (hw : 1 ≤ w)
    (hwmax : (w : Int) < 9223372036854775808)
    (hlen : (text.length : Int) < 9223372036854775807) :
    (stringsSplit text 0x20).length = text.count 0x20 + 1
    ∧ (NewNGramTokenizer (w : Int) WordLevel).TokenizeString text
        = some ((List.range ((stringsSplit text 0x20).length + 1 - w)).map (fun i : Nat =>
            stringsJoin (((stringsSplit text 0x20).drop i).take w) (lit " ")))
    ∧ stringsSplit (lit "") 0x20 = [lit ""]
    ∧ stringsSplit (lit "a  b") 0x20 = [lit "a", lit "", lit "b"]
    ∧ (NewNGramTokenizer 2 WordLevel).TokenizeString (lit "a b c d")
        = some [lit "a b", lit "b c", lit "c d"] := by
  exact ⟨splitLoop_length _ _ _, tokenizeWords_eq text w hw hwmax hlen,
    by decide, by decide, by decide⟩

theorem tokenizeWords_windows_witness :
    (stringsSplit (lit "to be  or") 0x20).length = (lit "to be  or").count 0x20 + 1
    ∧ (NewNGramTokenizer ((3 : Nat) : Int) WordLevel).TokenizeString (lit "to be  or")
        = some ((List.range ((stringsSplit (lit "to be  or") 0x20).length + 1 - 3)).map
            (fun i : Nat =>
              stringsJoin (((stringsSplit (lit "to be  or") 0x20).drop i).take 3) (lit " ")))
    ∧ stringsSplit (lit "") 0x20 = [lit ""]
    ∧ stringsSplit (lit "a  b") 0x20 = [lit "a", lit "", lit "b"]
    ∧ (NewNGramTokenizer 2 WordLevel).TokenizeString (lit "a b c d")
        = some [lit "a b", lit "b c", lit "c d"] :=
  tokenizeWords_windows (lit "to be  or") 3 (by decide) (by decide) (by decide)

/-- C6: word-level tokenization with the window equal to the number of words
of the text (number of spaces + 1) returns exactly one n-gram, the whole
text; with any larger window it returns the empty sequence. -/
theorem tokenizeWords_window_is_word_count (text : GoString)
    (hlen : (text.length : Int) < 9223372036854775807) :
    (NewNGramTokenizer ((text.count 0x20 + 1 : Nat) : Int) WordLevel).TokenizeString text
        = some [text]
    ∧ stringsJoin (stringsSplit text 0x20) (lit " ") = text
    ∧ ∀ w : Nat, text.count 0x20 + 1 < w → (w : Int) < 9223372036854775808 →
        (NewNGramTokenizer (w : Int) WordLevel).TokenizeString text = some [] := by
  have hn : (stringsSplit text 0x20).length = text.count 0x20 + 1 := splitLoop_length _ _ _
  have hc := count_le_length 0x20 text
  have hjoin : stringsJoin (stringsSplit text 0x20) (lit " ") = text := by
    rw [lit_space]
    exact stringsJoin_splitLoop 0x20 text []
  refine ⟨?_, hjoin, ?_⟩
  · rw [tokenizeWords_eq text _ (by omega) (by omega) hlen, hn]
    have e : text.count 0x20 + 1 + 1 - (text.count 0x20 + 1) = 1 := by omega
    rw [e]
    have htake : List.take (text.count 0x20 + 1) (stringsSplit text 0x20)
        = stringsSplit text 0x20 := by
      rw [← hn]; exact List.take_length _
    simp [List.range_succ, htake, hjoin]
  · intro w hw hwmax
    rw [tokenizeWords_eq text w (by omega) hwmax hlen, hn]
    have e : text.count 0x20 + 1 + 1 - w = 0 := by omega
    rw [e]
    rfl

theorem tokenizeWords_window_is_word_count_witness :
    (NewNGramTokenizer (((lit "a b c d").count 0x20 + 1 : Nat) : Int) WordLevel).TokenizeString
        (lit "a b c d") = some [lit "a b c d"]
    ∧ stringsJoin (stringsSplit (lit "a b c d") 0x20) (lit " ") = lit "a b c d"
    ∧ ∀ w : Nat, (lit "a b c d").count 0x20 + 1 < w → (w : Int) < 9223372036854775808 →
        (NewNGramTokenizer (w : Int) WordLevel).TokenizeString (lit "a b c d") = some [] :=
  tokenizeWords_window_is_word_count (lit "a b c d") (by decide)

/-- C8 fails for negative steps: `NewNGramTokenizer(-1, level)` is built
without complaint, and `TokenizeString` then panics on its first slice
`text[0:-1]` (character level) or `splittedWords[0:-1]` (word level). -/
theorem tokenize_negative_steps_panics :
    (NewNGramTokenizer (-1) CharacterLevel).TokenizeString (lit "") = none
    ∧ (NewNGramTokenizer (-1) WordLevel).TokenizeString (lit "") = none
    ∧ (NewNGramTokenizer (-1) CharacterLevel).TokenizeString (lit "abc") = none
    ∧ (NewNGramTokenizer (-1) WordLevel).TokenizeString (lit "a b c") = none := by
  decide

/-- C8, amended: for every `steps >= 0` (zero included), every level and
every text, and for every `steps` at all when the level is neither "word"
nor "character", `TokenizeString` completes and returns a sequence: no slice
is out of range. -/
theorem tokenize_total_for_nonnegative_steps (steps : Int) (level text : GoString)
    (hs : -9223372036854775808 ≤ steps ∧ steps < 9223372036854775808)
    (hlen : (text.length : Int) < 9223372036854775807)
    (h : 0 ≤ steps ∨ (level ≠ WordLevel ∧ level ≠ CharacterLevel)) :
    ∃ ngrams, (NewNGramTokenizer steps level).TokenizeString text = some ngrams := by
  apply Option.isSome_iff_exists.mp
  simp only [NGramTokenizer.TokenizeString, NewNGramTokenizer]
  by_cases hw : level = WordLevel
  · have h0 : 0 ≤ steps := by
      rcases h with h | h
      · exact h
      · exact absurd hw h.1
    rw [if_pos hw]
    have hn : (stringsSplit text 0x20).length = text.count 0x20 + 1 := splitLoop_length _ _ _
    have hc := count_le_length 0x20 text
    simp only [NGramTokenizer.tokenizeWords]
    apply appendLoop_isSome
    intro k hk
    have := slice_in_loop_isSome (stringsSplit text 0x20) steps h0 hs.2 (by omega) k hk
    obtain ⟨ws, hws⟩ := Option.isSome_iff_exists.mp this
    simp only [hws, Option.isSome_some]
  · rw [if_neg hw]
    by_cases hc : level = CharacterLevel
    · have h0 : 0 ≤ steps := by
        rcases h with h | h
        · exact h
        · exact absurd hc h.2
      rw [if_pos hc]
      simp only [NGramTokenizer.tokenizeCharacters]
      apply appendLoop_isSome
      intro k hk
      exact slice_in_loop_isSome text steps h0 hs.2 (by omega) k hk
    · rw [if_neg hc]
      rfl

theorem tokenize_total_for_nonnegative_steps_witness :
    ∃ ngrams, (NewNGramTokenizer 0 CharacterLevel).TokenizeString (lit "ab") = some ngrams :=
  tokenize_total_for_nonnegative_steps 0 CharacterLevel (lit "ab") (by decide) (by decide)
    (Or.inl (by decide))

/-- C7 fails: with the single string "ab" and the empty replacement (which
does not contain "ab"), the text "aabb" becomes "ab": the replacer makes one
pass, and removing the inner "ab" brings a new "ab" together. -/
theorem stringReplacement_leaves_new_occurrence :
    ¬ (lit "ab" <:+: lit "")
    ∧ (NewStringReplacementNormalizer [lit "ab"] (lit "")).Normalize (lit "aabb") = lit "ab"
    ∧ lit "ab" <:+: (NewStringReplacementNormalizer [lit "ab"] (lit "")).Normalize (lit "aabb") := by
  refine ⟨by decide, by decide, ?_⟩
  have h : (NewStringReplacementNormalizer [lit "ab"] (lit "")).Normalize (lit "aabb")
      = lit "ab" := by decide
  rw [h]

/-- C7, amended: for every list of normalization strings, every replacement
`r` and every text, the output of `StringReplacementNormalizer.Normalize`
contains no configured string that is a single byte and does not occur in
`r` (whatever the other configured strings are). -/
theorem stringReplacement_removes_single_bytes (normalizationStrings : List GoString)
    (r text : GoString) :
    ¬ ∃ s ∈ normalizationStrings, s.length = 1 ∧ ¬ (s <:+: r) ∧
        s <:+: (NewStringReplacementNormalizer normalizationStrings r).Normalize text := by
  rintro ⟨s, hs, hone, hr, hinf⟩
  obtain ⟨b, rfl⟩ := List.length_eq_one.mp hone
  have hb := (occurs_iff_mem b _).mpr hinf
  have hpairs := pairs_of_constructor normalizationStrings r
  have key := loop_bytes (oldnewPairs (replacerStrings normalizationStrings r))
    (fun c => [c] ∈ normalizationStrings ∧ ¬ ([c] <:+: r))
    (by
      intro p hp c hc hbad
      rw [hpairs] at hp
      rcases List.mem_append.mp hp with h | h
      · have := (List.mem_replicate.mp h).2
        rw [this] at hc
        simp at hc
      · obtain ⟨s', _, rfl⟩ := List.mem_map.mp h
        exact hbad.2 ((occurs_iff_mem c r).mp hc))
    (by
      intro c hbad
      refine ⟨r, ?_⟩
      rw [hpairs]
      exact List.mem_append_right _ (List.mem_map.mpr ⟨[c], hbad.1, rfl⟩))
    (2 * text.length + 3) text [] false (by simp) (by simp) b hb
  exact key ⟨hs, hr⟩

theorem stringReplacement_removes_single_bytes_witness :
    ¬ ∃ s ∈ mainNormalizationStrings, s.length = 1 ∧ ¬ (s <:+: lit "") ∧
        s <:+: (NewStringReplacementNormalizer mainNormalizationStrings (lit "")).Normalize
          awesomeTweet :=
  stringReplacement_removes_single_bytes mainNormalizationStrings (lit "") awesomeTweet

/-- C10 fails on the code: the chain of `main` turns the demonstration tweet
into "die bedcon ist die groãÿartigste konferenz des jahres httpbedconorg".
The pattern of `NewUrlReplacementNormalizer` holds the line breaks of its raw
string literal, so it matches nothing in the tweet and the URL stays; the
string replacement then only strips ":", "/" and "." from it.  The one-line
pattern of `naive.go` removes the URL from the same lower-cased text. -/
theorem mainChain_keeps_url_remnant :
    mainChain.Normalize awesomeTweet
      = lit "die bedcon ist die groãÿartigste konferenz des jahres httpbedconorg"
    ∧ lit "http" <:+: lit "die bedcon ist die groãÿartigste konferenz des jahres httpbedconorg"
    ∧ urlRegexp.ReplaceAllString (stringsToLower awesomeTweet) (lit "")
      = stringsToLower awesomeTweet
    ∧ naiveUrlRegexp.ReplaceAllString (stringsToLower awesomeTweet) (lit "")
      = lit "die @bedcon ist die groãÿartigste #konferenz des jahres. " := by
  set_option maxRecDepth 100000 in
  decide

/-! ## Further facts and claims -/

theorem tokenizeCharacters_eq (text : GoString) (w : Nat) (hw : 1 ≤ w)
    (hwmax : (w : Int) < 9223372036854775808)
    (hlen : (text.length : Int) < 9223372036854775808) :
    (NewNGramTokenizer (w : Int) CharacterLevel).tokenizeCharacters text
      = some ((List.range (text.length + 1 - w)).map (fun i : Nat => (text.drop i).take w)) := by
  simp only [NGramTokenizer.tokenizeCharacters, NewNGramTokenizer]
  exact charLoop_eq text w hw hwmax hlen

theorem window_overlap (text : GoString) (w i : Nat) (hw : 1 ≤ w)
    (hi : i + 1 + w ≤ text.length) :
    ((text.drop i).take w).tail = ((text.drop (i + 1)).take w).dropLast := by
  have h1 : ((text.drop i).take w).tail = (text.drop (i + 1)).take (w - 1) := by
    rw [← List.drop_one, List.drop_take, List.drop_drop]
  have h2 : ((text.drop (i + 1)).take w).dropLast = (text.drop (i + 1)).take (w - 1) := by
    rw [List.dropLast_eq_take, List.take_take, List.length_take, List.length_drop]
    congr 1
    omega
  rw [h1, h2]

/-- C11: for every level other than "word" and "character", every steps
(negative ones included) and every text, the tokenizer is built and
`TokenizeString` returns the empty (nil) sequence; no slice is evaluated,
the result does not depend on steps or text. -/
theorem tokenize_unknown_level_is_empty (steps : Int) (level text : GoString)
    (hw : level ≠ WordLevel) (hc : level ≠ CharacterLevel) :
    (NewNGramTokenizer steps level).TokenizeString text = some [] := by
  simp only [NGramTokenizer.TokenizeString, NewNGramTokenizer, if_neg hw, if_neg hc]

theorem tokenize_unknown_level_is_empty_witness :
    (NewNGramTokenizer (-1) (lit "sentence")).TokenizeString (lit "a b c") = some [] :=
  tokenize_unknown_level_is_empty (-1) (lit "sentence") (lit "a b c") (by decide) (by decide)

/-- C12: for a text of `B` bytes and steps `w >= 1`, `tokenizeCharacters`
evaluates only slices that are in bounds (it returns) and gives
`max(0, B - w + 1)` items in order, item `i` being the bytes `[i, i+w)`;
item `i` without its first byte is item `i+1` without its last byte, and for
`w = B` the single item is the text. -/
theorem tokenizeCharacters_byte_windows (text : GoString) (w : Nat) (hw : 1 ≤ w)
    (hwmax : (w : Int) < 9223372036854775808)
    (hlen : (text.length : Int) < 9223372036854775808) :
    (NewNGramTokenizer (w : Int) CharacterLevel).tokenizeCharacters text
      = some ((List.range (text.length + 1 - w)).map (fun i : Nat => (text.drop i).take w))
    ∧ (∀ i : Nat, i + 1 + w ≤ text.length →
        ((text.drop i).take w).tail = ((text.drop (i + 1)).take w).dropLast)
    ∧ (w = text.length →
        (NewNGramTokenizer (w : Int) CharacterLevel).tokenizeCharacters text = some [text]) := by
  refine ⟨tokenizeCharacters_eq text w hw hwmax hlen,
    fun i hi => window_overlap text w i hw hi, ?_⟩
  intro hB
  rw [tokenizeCharacters_eq text w hw hwmax hlen, hB]
  have e : text.length + 1 - text.length = 1 := by omega
  rw [e]
  simp [List.range_succ]

theorem tokenizeCharacters_byte_windows_witness :
    (NewNGramTokenizer ((2 : Nat) : Int) CharacterLevel).tokenizeCharacters (lit "abcd")
      = some ((List.range ((lit "abcd").length + 1 - 2)).map
          (fun i : Nat => ((lit "abcd").drop i).take 2))
    ∧ (∀ i : Nat, i + 1 + 2 ≤ (lit "abcd").length →
        (((lit "abcd").drop i).take 2).tail = (((lit "abcd").drop (i + 1)).take 2).dropLast)
    ∧ (2 = (lit "abcd").length →
        (NewNGramTokenizer ((2 : Nat) : Int) CharacterLevel).tokenizeCharacters (lit "abcd")
          = some [lit "abcd"]) :=
  tokenizeCharacters_byte_windows (lit "abcd") 2 (by decide) (by decide) (by decide)

theorem flatPairs_length (r : GoString) (ss : List GoString) :
    (flatPairs r ss).length = 2 * ss.length := by
  induction ss with
  | nil => rfl
  | cons s rest ih => simp only [flatPairs, List.length_cons, ih]; omega

theorem replacerStrings_length (ss : List GoString) (r : GoString) :
    (replacerStrings ss r).length = 4 * ss.length := by
  rw [replacerStrings_eq, List.length_append, List.length_replicate, flatPairs_length]
  omega

theorem deleteEmoticonsWrite_eq (n : UnicodeRangeNormalizer) (hs : n.StartPoint = 0x1F600)
    (he : n.EndPoint = 0x1F64F) (hr : n.ReplacementString = []) (rs : List Nat) :
    deleteEmoticonsWrite rs = n.write rs := by
  induction rs with
  | nil => rfl
  | cons r rest ih =>
    simp only [deleteEmoticonsWrite, UnicodeRangeNormalizer.write, ih, hs, he, hr]

theorem chain_loop_append (xs ys : List Normalizer) (t : GoString) :
    ChainNormalizer.loop (xs ++ ys) t = ChainNormalizer.loop ys (ChainNormalizer.loop xs t) := by
  induction xs generalizing t with
  | nil => rfl
  | cons x rest ih =>
    show ChainNormalizer.loop (rest ++ ys) (x.Normalize t) = _
    rw [ih]
    rfl

/-- C13 fails on the code: for the one configured string "a" and the
replacement "x" the list handed to `strings.NewReplacer` is
"", "", "a", "x" (length 4, not 2): `make([]string, 2*n)` already holds `2n`
empty strings and the loop appends after them.  In general the list is `2n`
empty strings followed by `s1, r, ..., sn, r`, of length `4n`.  The pairs of
empty strings come first and win: configured with the empty string and "x",
the normalizer leaves "ab" as it is, where the replacer built from "", "x"
gives "xaxbx". -/
theorem replacerStrings_starts_with_empty_strings :
    replacerStrings [lit "a"] (lit "x") = [lit "", lit "", lit "a", lit "x"]
    ∧ (replacerStrings [lit "a"] (lit "x")).length = 4
    ∧ (∀ (ss : List GoString) (r : GoString),
        replacerStrings ss r = List.replicate (2 * ss.length) [] ++ flatPairs r ss
        ∧ (replacerStrings ss r).length = 4 * ss.length)
    ∧ (NewStringReplacementNormalizer [lit ""] (lit "x")).Normalize (lit "ab") = lit "ab"
    ∧ (NewReplacer [lit "", lit "x"]).Replace (lit "ab") = lit "xaxbx" := by
  refine ⟨by decide, by decide, ?_, by decide, by decide⟩
  intro ss r
  exact ⟨replacerStrings_eq ss r, replacerStrings_length ss r⟩

/-- C14: the refactored range filter generalises the naive one: for every
text, `deleteEmoticons(text)` of `naive.go` equals
`NewUnicodeRangeNormalizerFromChart(EmoticonChart, "").Normalize(text)`,
which equals `NewUnicodeRangeNormalizer(0x1F600, 0x1F64F, "").Normalize(text)`. -/
theorem deleteEmoticons_eq_emoticon_filter (text : GoString) :
    deleteEmoticons text
      = (NewUnicodeRangeNormalizerFromChart EmoticonChart (lit "")).Normalize text
    ∧ (NewUnicodeRangeNormalizerFromChart EmoticonChart (lit "")).Normalize text
      = (NewUnicodeRangeNormalizer 0x1F600 0x1F64F (lit "")).Normalize text := by
  refine ⟨?_, rfl⟩
  unfold deleteEmoticons UnicodeRangeNormalizer.Normalize
  exact deleteEmoticonsWrite_eq _ rfl rfl rfl _

/-- C15: the refactored tokenizer generalises the naive one: for every text
and every steps, `NewNGramTokenizer(steps, CharacterLevel).TokenizeString(text)`
is what `extractNGrams(text, steps)` of `naive.go` is, the same sequence
where that returns and a panic exactly where that panics. -/
theorem tokenizeString_character_eq_extractNGrams (text : GoString) (steps : Int) :
    (NewNGramTokenizer steps CharacterLevel).TokenizeString text = extractNGrams text steps
    ∧ ((NewNGramTokenizer steps CharacterLevel).TokenizeString text = none
        ↔ extractNGrams text steps = none) := by
  have h : (NewNGramTokenizer steps CharacterLevel).TokenizeString text
      = extractNGrams text steps := by
    simp only [NGramTokenizer.TokenizeString, NewNGramTokenizer,
      if_neg wordLevel_ne_characterLevel, if_true, NGramTokenizer.tokenizeCharacters,
      extractNGrams]
  exact ⟨h, by rw [h]⟩

/-- C16: a chain is itself a `Normalizer`, and nesting equals flattening:
the chain of `xs ++ ys` gives what the chain of `ys` gives on the result of
the chain of `xs`, which is what the chain of the two chains gives. -/
theorem chain_nesting_is_flattening (xs ys : List Normalizer) (t : GoString) :
    (NewChainNormalizer (xs ++ ys)).Normalize t
      = (NewChainNormalizer ys).Normalize ((NewChainNormalizer xs).Normalize t)
    ∧ (NewChainNormalizer ys).Normalize ((NewChainNormalizer xs).Normalize t)
      = (NewChainNormalizer [(NewChainNormalizer xs).toNormalizer,
          (NewChainNormalizer ys).toNormalizer]).Normalize t :=
  ⟨chain_loop_append xs ys t, rfl⟩

theorem write_unchanged (n : UnicodeRangeNormalizer) (cs : List Nat)
    (h : ∀ v ∈ cs, ¬ (rune n.StartPoint ≤ (v : Int) ∧ (v : Int) ≤ rune n.EndPoint)) :
    n.write cs = utf8 cs := by
  induction cs with
  | nil => rfl
  | cons c rest ih =>
    simp only [UnicodeRangeNormalizer.write, utf8,
      if_neg (h c (List.mem_cons_self _ _)),
      ih (fun v hv => h v (List.mem_cons_of_mem _ hv))]

theorem normalize_unchanged (startPoint endPoint : Int) (r : GoString) (cs : List Nat)
    (hcs : ∀ v ∈ cs, isScalar v)
    (h : ∀ v ∈ cs, ¬ (rune startPoint ≤ (v : Int) ∧ (v : Int) ≤ rune endPoint)) :
    (NewUnicodeRangeNormalizer startPoint endPoint r).Normalize (utf8 cs) = utf8 cs := by
  unfold UnicodeRangeNormalizer.Normalize
  rw [runes_utf8 cs hcs]
  exact write_unchanged _ cs h

theorem normalize_utf8_eq (startPoint endPoint : Int) (rs cs : List Nat)
    (hcs : ∀ v ∈ cs, isScalar v) :
    (NewUnicodeRangeNormalizer startPoint endPoint (utf8 rs)).Normalize (utf8 cs)
      = utf8 (replaceRunes (rune startPoint) (rune endPoint) rs cs) := by
  unfold UnicodeRangeNormalizer.Normalize
  rw [runes_utf8 cs hcs, write_utf8 _ rs rfl]
  rfl

/-- C17 fails for a replacement that is not well-formed: with the range
[0x61, 0x61] and the replacement byte 9F (an invalid byte, read as U+FFFD,
which is not in the range), "a" becomes the byte 9F, and normalizing that
output again gives EF BF BD, the encoding of U+FFFD. -/
theorem unicodeRange_illformed_replacement_not_idempotent :
    runes [0x9F] = [0xFFFD]
    ∧ (NewUnicodeRangeNormalizer 0x61 0x61 [0x9F]).Normalize (lit "a") = [0x9F]
    ∧ (NewUnicodeRangeNormalizer 0x61 0x61 [0x9F]).Normalize
        ((NewUnicodeRangeNormalizer 0x61 0x61 [0x9F]).Normalize (lit "a"))
      = [0xEF, 0xBF, 0xBD] := by
  decide

/-- C17, amended: for bounds that fit a rune and a well-formed text,
normalizing with a well-formed replacement none of whose scalar values lies
in `[start, end]` is idempotent; and with any replacement a text without a
scalar value in the range, in particular any text when `start > end`, is
returned unchanged. -/
theorem unicodeRange_normalize_idempotent (startPoint endPoint : Int)
    (hs : -2147483648 ≤ startPoint ∧ startPoint < 2147483648)
    (he : -2147483648 ≤ endPoint ∧ endPoint < 2147483648)
    (cs : List Nat) (hcs : ∀ v ∈ cs, isScalar v) :
    (∀ rs : List Nat,
        (∀ v ∈ rs, isScalar v ∧ ¬ (startPoint ≤ (v : Int) ∧ (v : Int) ≤ endPoint)) →
        (NewUnicodeRangeNormalizer startPoint endPoint (utf8 rs)).Normalize
          ((NewUnicodeRangeNormalizer startPoint endPoint (utf8 rs)).Normalize (utf8 cs))
        = (NewUnicodeRangeNormalizer startPoint endPoint (utf8 rs)).Normalize (utf8 cs))
    ∧ (∀ r : GoString,
        (∀ v ∈ cs, ¬ (startPoint ≤ (v : Int) ∧ (v : Int) ≤ endPoint)) →
        (NewUnicodeRangeNormalizer startPoint endPoint r).Normalize (utf8 cs) = utf8 cs)
    ∧ (∀ r : GoString, endPoint < startPoint →
        (NewUnicodeRangeNormalizer startPoint endPoint r).Normalize (utf8 cs) = utf8 cs) := by
  have h1 : rune startPoint = startPoint := rune_eq_self _ hs
  have h2 : rune endPoint = endPoint := rune_eq_self _ he
  refine ⟨?_, ?_, ?_⟩
  · intro rs hrs
    have hall : ∀ v ∈ replaceRunes startPoint endPoint rs cs,
        isScalar v ∧ ¬ (startPoint ≤ (v : Int) ∧ (v : Int) ≤ endPoint) := by
      intro v hv
      rcases mem_replaceRunes _ _ _ _ _ hv with h | h
      · exact hrs v h
      · exact ⟨hcs v h.1, h.2⟩
    rw [normalize_utf8_eq startPoint endPoint rs cs hcs, h1, h2]
    exact normalize_unchanged _ _ _ _ (fun v hv => (hall v hv).1)
      (fun v hv => by rw [h1, h2]; exact (hall v hv).2)
  · intro r hno
    exact normalize_unchanged _ _ _ _ hcs (fun v hv => by rw [h1, h2]; exact hno v hv)
  · intro r hlt
    exact normalize_unchanged _ _ _ _ hcs (fun v _ => by rw [h1, h2]; omega)

theorem unicodeRange_normalize_idempotent_witness :
    (∀ rs : List Nat,
        (∀ v ∈ rs, isScalar v ∧ ¬ ((0x1F600 : Int) ≤ (v : Int) ∧ (v : Int) ≤ 0x1F64F)) →
        (NewUnicodeRangeNormalizer 0x1F600 0x1F64F (utf8 rs)).Normalize
          ((NewUnicodeRangeNormalizer 0x1F600 0x1F64F (utf8 rs)).Normalize
            (utf8 [0x61, 0x1F600, 0xDF]))
        = (NewUnicodeRangeNormalizer 0x1F600 0x1F64F (utf8 rs)).Normalize
            (utf8 [0x61, 0x1F600, 0xDF]))
    ∧ (∀ r : GoString,
        (∀ v ∈ ([0x61, 0x1F600, 0xDF] : List Nat),
          ¬ ((0x1F600 : Int) ≤ (v : Int) ∧ (v : Int) ≤ 0x1F64F)) →
        (NewUnicodeRangeNormalizer 0x1F600 0x1F64F r).Normalize (utf8 [0x61, 0x1F600, 0xDF])
          = utf8 [0x61, 0x1F600, 0xDF])
    ∧ (∀ r : GoString, (0x1F64F : Int) < 0x1F600 →
        (NewUnicodeRangeNormalizer 0x1F600 0x1F64F r).Normalize (utf8 [0x61, 0x1F600, 0xDF])
          = utf8 [0x61, 0x1F600, 0xDF]) :=
  unicodeRange_normalize_idempotent 0x1F600 0x1F64F (by decide) (by decide)
    [0x61, 0x1F600, 0xDF] (by decide)

/-- C18 fails for bounds outside the 32-bit range: `rune(4294967296)` is 0,
so with StartPoint 0 and EndPoint 2^32 the letter "a" (0 <= 0x61 <= 2^32) is
not replaced; `rune(2147483649)` is negative, so with EndPoint 2^31 + 1
nothing is replaced; and with both points 2^32 + 0x61 the letter "a" is
replaced although it is not between them. -/
theorem unicodeRange_bounds_are_truncated :
    rune 4294967296 = 0
    ∧ (NewUnicodeRangeNormalizer 0 4294967296 (lit "_")).Normalize (lit "a") = lit "a"
    ∧ rune 2147483649 = -2147483647
    ∧ (NewUnicodeRangeNormalizer 0 2147483649 (lit "_")).Normalize (lit "a") = lit "a"
    ∧ (NewUnicodeRangeNormalizer 4294967393 4294967393 (lit "_")).Normalize (lit "a")
        = lit "_" := by
  decide

/-- C18, amended: on a well-formed text every scalar value `v` is replaced
exactly when `rune(StartPoint) <= v <= rune(EndPoint)`, the bounds being cut
to their low 32 bits; for bounds that fit a rune this is
`StartPoint <= v <= EndPoint`. -/
theorem unicodeRange_matches_truncated_bounds (startPoint endPoint : Int) (r : GoString)
    (cs : List Nat) (hcs : ∀ v ∈ cs, isScalar v) :
    (NewUnicodeRangeNormalizer startPoint endPoint r).Normalize (utf8 cs)
      = concatStrings (cs.map (fun (v : Nat) =>
          if rune startPoint ≤ (v : Int) ∧ (v : Int) ≤ rune endPoint then r else utf8 [v]))
    ∧ (-2147483648 ≤ startPoint ∧ startPoint < 2147483648 →
       -2147483648 ≤ endPoint ∧ endPoint < 2147483648 →
       (NewUnicodeRangeNormalizer startPoint endPoint r).Normalize (utf8 cs)
        = concatStrings (cs.map (fun (v : Nat) =>
            if startPoint ≤ (v : Int) ∧ (v : Int) ≤ endPoint then r else utf8 [v]))) := by
  have key : (NewUnicodeRangeNormalizer startPoint endPoint r).Normalize (utf8 cs)
      = concatStrings (cs.map (fun (v : Nat) =>
          if rune startPoint ≤ (v : Int) ∧ (v : Int) ≤ rune endPoint then r else utf8 [v])) := by
    unfold UnicodeRangeNormalizer.Normalize
    rw [runes_utf8 cs hcs, write_eq_concat]
    simp only [NewUnicodeRangeNormalizer, utf8, List.append_nil]
  refine ⟨key, ?_⟩
  intro hs he
  rw [key, rune_eq_self _ hs, rune_eq_self _ he]

theorem unicodeRange_matches_truncated_bounds_witness :
    (NewUnicodeRangeNormalizer 0 4294967296 (lit "_")).Normalize (utf8 [0x00, 0x61, 0x1F600])
      = concatStrings ([0x00, 0x61, 0x1F600].map (fun (v : Nat) =>
          if rune 0 ≤ (v : Int) ∧ (v : Int) ≤ rune 4294967296 then lit "_" else utf8 [v]))
    ∧ (-2147483648 ≤ (0 : Int) ∧ (0 : Int) < 2147483648 →
       -2147483648 ≤ (4294967296 : Int) ∧ (4294967296 : Int) < 2147483648 →
       (NewUnicodeRangeNormalizer 0 4294967296 (lit "_")).Normalize (utf8 [0x00, 0x61, 0x1F600])
        = concatStrings ([0x00, 0x61, 0x1F600].map (fun (v : Nat) =>
            if (0 : Int) ≤ (v : Int) ∧ (v : Int) ≤ 4294967296 then lit "_" else utf8 [v]))) :=
  unicodeRange_matches_truncated_bounds 0 4294967296 (lit "_") [0x00, 0x61, 0x1F600]
    (by decide)

/-! ## Chains of scalar replacements -/

end Bedcon
